import Mathlib

/-!
# Bond yield-to-maturity calculator: embedding and verification

Shallow embedding of the yield core of the bond YTM calculator: the input
validation, the semiannual cash-flow generator and the fixed-count bisection
yield solver, with JS numbers modelled as exact rationals.  The `bond`
function embeds the `bond` `useMemo` of `App.jsx`; `solveYTM_SemiannualPerPeriod`
embeds the standalone solver variant.
-/

namespace BondYTM

/-- Input bundle held in the App's React state: market price, annual coupon
rate in percent, years to maturity, and face value. -/
structure Inputs where
  price : ℚ
  couponPct : ℚ
  years : ℚ
  face : ℚ
deriving DecidableEq

/-- Field-level validation errors produced by `validateInputs` in `App.jsx`:
one optional message per input field. -/
structure Errors where
  price : Option String
  couponPct : Option String
  years : Option String
deriving DecidableEq

/-- `validateInputs` from `App.jsx`: range checks on price, couponPct and
years.  JS truthiness: a `price` or `years` value of 0 is falsy and triggers
the first branch of its check. -/
def validateInputs (i : Inputs) : Errors where
  price :=
    if i.price = 0 ∨ i.price < 50 then some "Price must be at least $50"
    else if 150 < i.price then some "Price cannot exceed $150"
    else none
  couponPct :=
    if i.couponPct < 0 then some "Coupon rate cannot be negative"
    else if 20 < i.couponPct then some "Coupon rate cannot exceed 20%"
    else none
  years :=
    if i.years = 0 ∨ i.years ≤ 0 then some "Years to maturity must be positive"
    else if 10 < i.years then some "Years to maturity cannot exceed 10"
    else none

/-- The `Object.keys(inputErrors).length > 0` test in `App.jsx`: some field
has an error message. -/
def hasErrors (e : Errors) : Bool :=
  e.price.isSome || e.couponPct.isSome || e.years.isSome

/-- The cash-flow array `cf` built in the `bond` memo of `App.jsx`.
`n = years * 2` is a number; `Array.from` truncates the requested length to a
nonnegative integer, while the comparison `i === n - 1` is exact on the
untruncated `n`. -/
def cashflows (i : Inputs) : List ℚ :=
  let c : ℚ := i.couponPct / 100 * i.face
  let n : ℚ := i.years * 2
  (List.range (Int.toNat ⌊n⌋)).map fun t : ℕ =>
    if (t : ℚ) = n - 1 then c / 2 + i.face else c / 2

/-- Present-value accumulator: `pvFrom y t [c0, c1, ...]` discounts `c0` at
exponent `t`, `c1` at exponent `t+1`, and so on. -/
def pvFrom (y : ℚ) : ℕ → List ℚ → ℚ
  | _, [] => 0
  | t, cash :: rest => cash / (1 + y) ^ t + pvFrom y (t + 1) rest

/-- The `pv` closure of the solver: `Σ cf[t] / (1+y)^(t+1)` over the
schedule, exponents starting at 1. -/
def pv (cf : List ℚ) (y : ℚ) : ℚ := pvFrom y 1 cf

/-- One step of the solver loop in `App.jsx`: `mid = (lo+hi)/2`; if
`pv(mid) > price` the new interval is `[mid, hi]`, else `[lo, mid]`. -/
def bstep (cf : List ℚ) (price : ℚ) (s : ℚ × ℚ) : ℚ × ℚ :=
  if price < pv cf ((s.1 + s.2) / 2) then ((s.1 + s.2) / 2, s.2) else (s.1, (s.1 + s.2) / 2)

/-- The `for` loop of the solver: `k` bisection steps. -/
def bisect (cf : List ℚ) (price : ℚ) : ℕ → ℚ × ℚ → ℚ × ℚ
  | 0, s => s
  | k + 1, s => bisect cf price k (bstep cf price s)

/-- The solver's output rate `y`: 200 bisection steps from `[0, 1]`, then the
final midpoint `(lo+hi)/2`. -/
def solve (cf : List ℚ) (price : ℚ) : ℚ :=
  let s := bisect cf price 200 (0, 1)
  (s.1 + s.2) / 2

/-- The object returned by the `bond` memo in `App.jsx`:
`{ yPer: y, bey, periods: n, cashflows: cf }`. -/
structure BondResult where
  yPer : ℚ
  bey : ℚ
  periods : ℚ
  cashflows : List ℚ
deriving DecidableEq

/-- The `bond` `useMemo` of `App.jsx`: `null` when validation reports any
error, otherwise the solved yield bundle. -/
def bond (i : Inputs) : Option BondResult :=
  if hasErrors (validateInputs i) then none
  else
    let cf := cashflows i
    let y := solve cf i.price
    some { yPer := y, bey := 2 * y, periods := i.years * 2, cashflows := cf }

/-- The object returned by `solveYTM_SemiannualPerPeriod` in the standalone
variant: `{ yPer, bey, ear, periods, cashflows, pvAtY }`. -/
structure SolveResult where
  yPer : ℚ
  bey : ℚ
  ear : ℚ
  periods : ℚ
  cashflows : List ℚ
  pvAtY : ℚ → ℚ

/-- `solveYTM_SemiannualPerPeriod` from the standalone variant file: the same
cash-flow construction and bisection as the `App.jsx` memo, plus the
effective annual rate `ear = (1+y)^2 - 1` and a pv closure. -/
def solveYTM_SemiannualPerPeriod (price couponPct years face : ℚ) : SolveResult :=
  let cf := cashflows ⟨price, couponPct, years, face⟩
  let y := solve cf price
  { yPer := y, bey := 2 * y, ear := (1 + y) ^ 2 - 1, periods := years * 2,
    cashflows := cf, pvAtY := fun yTest => pv cf yTest }

/-- The field names of the object literal returned by the `bond` memo in
`App.jsx` (`return { yPer: y, bey, periods: n, cashflows: cf }`). -/
def bondResultFields : List String :=
  ["yPer", "bey", "periods", "cashflows"]

/-- The field names of the object literal returned by
`solveYTM_SemiannualPerPeriod` in the standalone variant. -/
def solveYTMResultFields : List String :=
  ["yPer", "bey", "ear", "periods", "cashflows", "pvAtY"]

/-- The bisection step exactly as the specification words it: each step
computes `mid = (lo+hi)/2`; if `PV(mid) > price` then `lo = mid`, otherwise
`hi = mid`. -/
def specBisectStep (cf : List ℚ) (price : ℚ) (s : ℚ × ℚ) : ℚ × ℚ :=
  let mid := (s.1 + s.2) / 2
  if pv cf mid > price then (mid, s.2) else (s.1, mid)

/-! ## Basic facts about the bisection loop -/

theorem bisect_zero (cf : List ℚ) (p : ℚ) (s : ℚ × ℚ) : bisect cf p 0 s = s := rfl

theorem bisect_succ (cf : List ℚ) (p : ℚ) (k : ℕ) (s : ℚ × ℚ) :
    bisect cf p (k + 1) s = bisect cf p k (bstep cf p s) := rfl

/-- The solver loop is the k-fold iterate of the single bisection step. -/
theorem bisect_eq_iterate (cf : List ℚ) (p : ℚ) (k : ℕ) (s : ℚ × ℚ) :
    bisect cf p k s = (bstep cf p)^[k] s := by
  induction k generalizing s with
  | zero => rfl
  | succ k ih => rw [bisect_succ, ih, Function.iterate_succ_apply]

/-- The step as worded in the specification is the step of the code. -/
theorem specBisectStep_eq (cf : List ℚ) (p : ℚ) (s : ℚ × ℚ) :
    specBisectStep cf p s = bstep cf p s := rfl

/-- Each step either keeps the upper half or the lower half of the interval. -/
theorem bstep_cases (cf : List ℚ) (p : ℚ) (s : ℚ × ℚ) :
    bstep cf p s = ((s.1 + s.2) / 2, s.2) ∨ bstep cf p s = (s.1, (s.1 + s.2) / 2) := by
  unfold bstep
  split
  · exact Or.inl rfl
  · exact Or.inr rfl

/-- Any property preserved by the step holds after the loop. -/
theorem bisect_invariant {cf : List ℚ} {p : ℚ} {P : ℚ × ℚ → Prop}
    (hstep : ∀ s, P s → P (bstep cf p s)) :
    ∀ (k : ℕ) (s : ℚ × ℚ), P s → P (bisect cf p k s) := by
  intro k
  induction k with
  | zero => intro s hs; exact hs
  | succ k ih => intro s hs; exact ih _ (hstep s hs)

/-- The loop keeps the interval inside the starting bounds and ordered. -/
theorem bisect_bounds {cf : List ℚ} {p : ℚ} (k : ℕ) {s : ℚ × ℚ}
    (h0 : 0 ≤ s.1) (h : s.1 ≤ s.2) (h1 : s.2 ≤ 1) :
    0 ≤ (bisect cf p k s).1 ∧ (bisect cf p k s).1 ≤ (bisect cf p k s).2 ∧
      (bisect cf p k s).2 ≤ 1 := by
  refine bisect_invariant (P := fun s => 0 ≤ s.1 ∧ s.1 ≤ s.2 ∧ s.2 ≤ 1) ?_ k s ⟨h0, h, h1⟩
  rintro s ⟨hs0, hs, hs1⟩
  rcases bstep_cases cf p s with he | he <;> rw [he] <;>
    exact ⟨by dsimp only; linarith, by dsimp only; linarith, by dsimp only; linarith⟩

/-- One step exactly halves the interval width. -/
theorem bstep_width (cf : List ℚ) (p : ℚ) (s : ℚ × ℚ) :
    (bstep cf p s).2 - (bstep cf p s).1 = (s.2 - s.1) / 2 := by
  rcases bstep_cases cf p s with he | he <;> rw [he] <;> dsimp only <;> ring

/-- After k steps the interval width is divided by 2^k. -/
theorem bisect_width (cf : List ℚ) (p : ℚ) (k : ℕ) (s : ℚ × ℚ) :
    (bisect cf p k s).2 - (bisect cf p k s).1 = (s.2 - s.1) / 2 ^ k := by
  induction k generalizing s with
  | zero => simp [bisect_zero]
  | succ k ih =>
    rw [bisect_succ, ih, bstep_width]
    ring

/-- The loop preserves the bracketing `pv(lo) ≥ price ≥ pv(hi)`. -/
theorem bisect_bracket {cf : List ℚ} {p : ℚ} (k : ℕ) {s : ℚ × ℚ}
    (hlo : p ≤ pv cf s.1) (hhi : pv cf s.2 ≤ p) :
    p ≤ pv cf (bisect cf p k s).1 ∧ pv cf (bisect cf p k s).2 ≤ p := by
  refine bisect_invariant (P := fun s => p ≤ pv cf s.1 ∧ pv cf s.2 ≤ p) ?_ k s ⟨hlo, hhi⟩
  rintro s ⟨h1, h2⟩
  unfold bstep
  split
  next h => exact ⟨le_of_lt h, h2⟩
  next h => exact ⟨h1, not_lt.mp h⟩

/-! ## Monotonicity of the present-value function -/

/-- The present value weakly decreases in the rate when all cash flows are
nonnegative. -/
theorem pvFrom_le_pvFrom {cf : List ℚ} (hcf : ∀ x ∈ cf, 0 ≤ x) {y1 y2 : ℚ}
    (hy1 : -1 < y1) (h12 : y1 ≤ y2) (t : ℕ) :
    pvFrom y2 t cf ≤ pvFrom y1 t cf := by
  induction cf generalizing t with
  | nil => simp [pvFrom]
  | cons cash rest ih =>
    simp only [pvFrom]
    have hc : 0 ≤ cash := hcf cash (by simp)
    have hrest : ∀ x ∈ rest, 0 ≤ x := fun x hx => hcf x (by simp [hx])
    have h1 : (0 : ℚ) < 1 + y1 := by linarith
    have h2 : (0 : ℚ) < (1 + y1) ^ t := pow_pos h1 t
    have hterm : cash / (1 + y2) ^ t ≤ cash / (1 + y1) ^ t := by
      gcongr
    exact add_le_add hterm (ih hrest (t + 1))

/-- The present value strictly decreases in the rate when all cash flows are
nonnegative and at least one is positive (exponents at least 1). -/
theorem pvFrom_lt_pvFrom {cf : List ℚ} (hcf : ∀ x ∈ cf, 0 ≤ x)
    (hpos : ∃ x ∈ cf, 0 < x) {y1 y2 : ℚ}
    (hy1 : -1 < y1) (h12 : y1 < y2) {t : ℕ} (ht : 1 ≤ t) :
    pvFrom y2 t cf < pvFrom y1 t cf := by
  induction cf generalizing t with
  | nil => simp at hpos
  | cons cash rest ih =>
    simp only [pvFrom]
    have hrest : ∀ x ∈ rest, 0 ≤ x := fun x hx => hcf x (by simp [hx])
    have h1 : (0 : ℚ) < 1 + y1 := by linarith
    have h2 : (0 : ℚ) < (1 + y1) ^ t := pow_pos h1 t
    have hpow : (1 + y1) ^ t < (1 + y2) ^ t := by
      apply pow_lt_pow_left₀ (by linarith) (by linarith)
      omega
    by_cases hc : 0 < cash
    · have hterm : cash / (1 + y2) ^ t < cash / (1 + y1) ^ t :=
        div_lt_div_of_pos_left hc h2 hpow
      have htail : pvFrom y2 (t + 1) rest ≤ pvFrom y1 (t + 1) rest :=
        pvFrom_le_pvFrom hrest hy1 (le_of_lt h12) (t + 1)
      linarith
    · have hc0 : cash = 0 := le_antisymm (not_lt.mp hc) (hcf cash (by simp))
      obtain ⟨x, hx, hxpos⟩ := hpos
      have hxrest : x ∈ rest := by
        rcases List.mem_cons.mp hx with h | h
        · exact absurd (h ▸ hxpos) (by simp [hc0])
        · exact h
      have htail : pvFrom y2 (t + 1) rest < pvFrom y1 (t + 1) rest :=
        ih hrest ⟨x, hxrest, hxpos⟩ (by omega)
      simp only [hc0, zero_div]
      linarith

/-! ## The generated schedule -/

theorem cashflows_def (i : Inputs) :
    cashflows i = (List.range (Int.toNat ⌊i.years * 2⌋)).map fun t : ℕ =>
      if (t : ℚ) = i.years * 2 - 1 then i.couponPct / 100 * i.face / 2 + i.face
      else i.couponPct / 100 * i.face / 2 := rfl

/-- Evaluating an entry of a range-map list. -/
theorem getD_range_map (f : ℕ → ℚ) {m t : ℕ} (ht : t < m) :
    ((List.range m).map f).getD t 0 = f t := by
  rw [List.getD_eq_getElem?_getD, List.getElem?_map, List.getElem?_range ht]
  rfl

/-- When `years * 2` is exactly the positive integer `m`, the generated
schedule is `m` coupons with the face added to the last one. -/
theorem cashflows_int (i : Inputs) {m : ℕ} (hm1 : 1 ≤ m) (hm : i.years * 2 = (m : ℚ)) :
    cashflows i = (List.range m).map fun t =>
      if t = m - 1 then i.couponPct / 100 * i.face / 2 + i.face
      else i.couponPct / 100 * i.face / 2 := by
  rw [cashflows_def, hm, Int.floor_natCast, Int.toNat_natCast]
  refine List.map_congr_left ?_
  intro t htm
  have htm' : t < m := List.mem_range.mp htm
  have hiff : ((t : ℚ) = (m : ℚ) - 1) ↔ (t = m - 1) := by
    rw [eq_sub_iff_add_eq]
    rw [show ((t : ℚ) + 1) = ((t + 1 : ℕ) : ℚ) by push_cast; ring]
    rw [Nat.cast_inj]
    omega
  exact if_congr hiff rfl rfl

/-- When `years * 2` is not an integer, the last-entry test never fires: the
schedule is all plain coupons, truncated to the floor of `years * 2`. -/
theorem cashflows_frac (i : Inputs) (hni : (⌊i.years * 2⌋ : ℚ) ≠ i.years * 2) :
    cashflows i = (List.range (Int.toNat ⌊i.years * 2⌋)).map
      fun _ => i.couponPct / 100 * i.face / 2 := by
  rw [cashflows_def]
  refine List.map_congr_left ?_
  intro t htm
  have htm' : t < Int.toNat ⌊i.years * 2⌋ := List.mem_range.mp htm
  rw [if_neg]
  intro hteq
  apply hni
  have hfl : ⌊i.years * 2⌋ = (t : ℤ) + 1 := by
    rw [show i.years * 2 = ((t : ℚ) + 1) by linarith [hteq]]
    rw [show ((t : ℚ) + 1) = (((t : ℤ) + 1 : ℤ) : ℚ) by push_cast; ring]
    exact Int.floor_intCast _
  rw [hfl]
  push_cast
  linarith [hteq]

/-! ## Saturation: when the price is never undershot -/

/-- If `pv` never exceeds the price anywhere in the interval, every step
keeps the lower endpoint and halves toward it. -/
theorem bisect_all_below {cf : List ℚ} {p : ℚ} :
    ∀ (k : ℕ) {lo hi : ℚ}, lo ≤ hi →
      (∀ x, lo ≤ x → x ≤ hi → pv cf x ≤ p) →
      bisect cf p k (lo, hi) = (lo, lo + (hi - lo) / 2 ^ k) := by
  intro k
  induction k with
  | zero =>
    intro lo hi _ _
    rw [bisect_zero]
    norm_num
  | succ k ih =>
    intro lo hi h hall
    rw [bisect_succ]
    have hmid_lo : lo ≤ (lo + hi) / 2 := by linarith
    have hmid_hi : (lo + hi) / 2 ≤ hi := by linarith
    have hdec : ¬ p < pv cf (((lo, hi).1 + (lo, hi).2) / 2) :=
      not_lt.mpr (hall _ hmid_lo hmid_hi)
    have hb : bstep cf p (lo, hi) = (lo, (lo + hi) / 2) := by
      unfold bstep
      rw [if_neg hdec]
    rw [hb, ih hmid_lo (fun x hx1 hx2 => hall x hx1 (le_trans hx2 hmid_hi))]
    congr 1
    ring

/-! ## Monotonicity of the solver in the price -/

/-- Paired step: run the step for a lower price `p1` on state `s` and for a
higher price `p2` on state `t`; if `t` sits at or below `s` (or they are
equal), the same holds afterwards. -/
theorem bstep_rel {cf : List ℚ} {p1 p2 : ℚ} (h12 : p1 ≤ p2) {s t : ℚ × ℚ}
    (hs : s.1 ≤ s.2) (ht : t.1 ≤ t.2) (hrel : s = t ∨ t.2 ≤ s.1) :
    (bstep cf p1 s).1 ≤ (bstep cf p1 s).2 ∧ (bstep cf p2 t).1 ≤ (bstep cf p2 t).2 ∧
      (bstep cf p1 s = bstep cf p2 t ∨ (bstep cf p2 t).2 ≤ (bstep cf p1 s).1) := by
  have hs' : (bstep cf p1 s).1 ≤ (bstep cf p1 s).2 := by
    rcases bstep_cases cf p1 s with he | he <;> rw [he] <;> dsimp only <;> linarith
  have ht' : (bstep cf p2 t).1 ≤ (bstep cf p2 t).2 := by
    rcases bstep_cases cf p2 t with he | he <;> rw [he] <;> dsimp only <;> linarith
  refine ⟨hs', ht', ?_⟩
  rcases hrel with rfl | hle
  · by_cases hq2 : p2 < pv cf ((s.1 + s.2) / 2)
    · have hq1 : p1 < pv cf ((s.1 + s.2) / 2) := lt_of_le_of_lt h12 hq2
      left
      unfold bstep
      rw [if_pos hq1, if_pos hq2]
    · by_cases hq1 : p1 < pv cf ((s.1 + s.2) / 2)
      · right
        unfold bstep
        rw [if_pos hq1, if_neg hq2]
      · left
        unfold bstep
        rw [if_neg hq1, if_neg hq2]
  · right
    have h1 : (bstep cf p2 t).2 ≤ t.2 := by
      rcases bstep_cases cf p2 t with he | he <;> rw [he] <;> dsimp only <;> linarith
    have h2 : s.1 ≤ (bstep cf p1 s).1 := by
      rcases bstep_cases cf p1 s with he | he <;> rw [he] <;> dsimp only <;> linarith
    linarith

/-- Paired loop: the relation of `bstep_rel` is preserved through all `k`
steps. -/
theorem bisect_rel {cf : List ℚ} {p1 p2 : ℚ} (h12 : p1 ≤ p2) :
    ∀ (k : ℕ) (s t : ℚ × ℚ), s.1 ≤ s.2 → t.1 ≤ t.2 → (s = t ∨ t.2 ≤ s.1) →
      (bisect cf p1 k s).1 ≤ (bisect cf p1 k s).2 ∧
      (bisect cf p2 k t).1 ≤ (bisect cf p2 k t).2 ∧
      (bisect cf p1 k s = bisect cf p2 k t ∨
        (bisect cf p2 k t).2 ≤ (bisect cf p1 k s).1) := by
  intro k
  induction k with
  | zero =>
    intro s t hs ht hrel
    exact ⟨hs, ht, hrel⟩
  | succ k ih =>
    intro s t hs ht hrel
    rw [bisect_succ, bisect_succ]
    obtain ⟨h1, h2, h3⟩ := bstep_rel h12 hs ht hrel
    exact ih _ _ h1 h2 h3

theorem solve_def (cf : List ℚ) (p : ℚ) :
    solve cf p = ((bisect cf p 200 (0, 1)).1 + (bisect cf p 200 (0, 1)).2) / 2 := rfl

/-- The solved rate weakly decreases as the target price increases. -/
theorem solve_anti {cf : List ℚ} {p1 p2 : ℚ} (h12 : p1 ≤ p2) :
    solve cf p2 ≤ solve cf p1 := by
  obtain ⟨h1, h2, h3⟩ :=
    @bisect_rel cf p1 p2 h12 200 (0, 1) (0, 1) (by norm_num) (by norm_num) (Or.inl rfl)
  rw [solve_def, solve_def]
  rcases h3 with he | hle
  · rw [he]
  · linarith

/-! ## Shifting and the par identity -/

/-- Discounting one extra period divides the present value by `1 + y`. -/
theorem pvFrom_succ (y : ℚ) (cf : List ℚ) :
    ∀ t, pvFrom y (t + 1) cf = pvFrom y t cf / (1 + y) := by
  induction cf with
  | nil =>
    intro t
    simp [pvFrom]
  | cons cash rest ih =>
    intro t
    simp only [pvFrom]
    rw [ih (t + 1), add_div, div_div, ← pow_succ]

/-- Par identity: a schedule of `m` level coupons `q` with the face `F`
repaid at the end, discounted at the per-period rate `q / F`, is worth
exactly `F`. -/
theorem pv_par (q F : ℚ) (hF : 0 < F) (hq : 0 ≤ q) :
    ∀ m : ℕ, 1 ≤ m →
      pvFrom (q / F) 1 ((List.range m).map fun t => if t = m - 1 then q + F else q) = F := by
  have hFq : F + q ≠ 0 := by positivity
  have hden : 1 + q / F ≠ 0 := by
    have : 1 + q / F = (F + q) / F := by field_simp
    rw [this]
    exact div_ne_zero hFq (ne_of_gt hF)
  have hbase : (q + F) / (1 + q / F) = F := by
    rw [div_eq_iff hden]
    field_simp
    ring
  intro m hm
  induction m, hm using Nat.le_induction with
  | base =>
    have hlist : ((List.range 1).map fun t : ℕ => if t = 1 - 1 then q + F else q) =
        [q + F] := by simp [List.range_succ]
    rw [hlist]
    simp only [pvFrom]
    rw [pow_one, add_zero]
    exact hbase
  | succ m hm1 ih =>
    rw [List.range_succ_eq_map, List.map_cons, List.map_map]
    have hf0 : (if (0 : ℕ) = m + 1 - 1 then q + F else q) = q := by
      rw [if_neg (by omega)]
    have hcomp :
        ((fun t => if t = m + 1 - 1 then q + F else q) ∘ Nat.succ) =
          fun t : ℕ => if t = m - 1 then q + F else q := by
      funext t
      simp only [Function.comp_apply]
      exact if_congr (by omega) rfl rfl
    simp only [hf0, hcomp]
    simp only [pvFrom]
    rw [pvFrom_succ, ih, pow_one, div_add_div_same]
    exact hbase

/-! ## A Lipschitz-type bound for the present value -/

/-- Difference of powers bound on `[0, 2]`. -/
theorem pow_sub_pow_le (t : ℕ) {x y : ℚ} (hy0 : 0 ≤ y) (hyx : y ≤ x) (hx2 : x ≤ 2) :
    x ^ t - y ^ t ≤ (t : ℚ) * 2 ^ t * (x - y) := by
  induction t with
  | zero => simp
  | succ t ih =>
    have hx0 : 0 ≤ x := le_trans hy0 hyx
    have hyt : y ^ t ≤ x ^ t := pow_le_pow_left₀ hy0 hyx t
    have hxt : x ^ t ≤ 2 ^ t := pow_le_pow_left₀ hx0 hx2 t
    have hy2 : y ^ t ≤ 2 ^ t := le_trans hyt hxt
    have h2t : (0 : ℚ) ≤ 2 ^ t := by positivity
    have hxy : 0 ≤ x - y := sub_nonneg.mpr hyx
    have h1 : x * (x ^ t - y ^ t) ≤ 2 * (x ^ t - y ^ t) :=
      mul_le_mul_of_nonneg_right hx2 (sub_nonneg.mpr hyt)
    have h2 : (x - y) * y ^ t ≤ (x - y) * 2 ^ t := mul_le_mul_of_nonneg_left hy2 hxy
    calc x ^ (t + 1) - y ^ (t + 1) = x * (x ^ t - y ^ t) + (x - y) * y ^ t := by ring
      _ ≤ 2 * (x ^ t - y ^ t) + (x - y) * 2 ^ t := by linarith
      _ ≤ 2 * ((t : ℚ) * 2 ^ t * (x - y)) + (x - y) * 2 ^ t := by linarith
      _ ≤ ((t : ℚ) + 1) * (2 ^ t * 2) * (x - y) := by nlinarith [mul_nonneg h2t hxy]
      _ = ((t + 1 : ℕ) : ℚ) * 2 ^ (t + 1) * (x - y) := by
          push_cast [pow_succ]
          try ring

/-- A Lipschitz-type coefficient for `pvFrom` on rates in `[0, 1]`. -/
def pvLip : ℕ → List ℚ → ℚ
  | _, [] => 0
  | t, cash :: rest => cash * t * 2 ^ t + pvLip (t + 1) rest

/-- `pvFrom` varies by at most `pvLip` times the rate difference, for rates
in `[0, 1]` and nonnegative cash flows. -/
theorem pvFrom_sub_le {cf : List ℚ} (hcf : ∀ x ∈ cf, 0 ≤ x) {a b : ℚ}
    (ha : 0 ≤ a) (hab : a ≤ b) (hb : b ≤ 1) :
    ∀ t, pvFrom a t cf - pvFrom b t cf ≤ pvLip t cf * (b - a) := by
  induction cf with
  | nil =>
    intro t
    simp [pvFrom, pvLip]
  | cons cash rest ih =>
    intro t
    simp only [pvFrom, pvLip]
    have hc : 0 ≤ cash := hcf cash (by simp)
    have hrest : ∀ x ∈ rest, 0 ≤ x := fun x hx => hcf x (by simp [hx])
    have hX1 : 1 ≤ (1 + a) ^ t := one_le_pow₀ (by linarith)
    have hY1 : 1 ≤ (1 + b) ^ t := one_le_pow₀ (by linarith)
    have hX0 : (1 + a) ^ t ≠ 0 := by positivity
    have hY0 : (1 + b) ^ t ≠ 0 := by positivity
    have hXY : (1 + a) ^ t ≤ (1 + b) ^ t := pow_le_pow_left₀ (by linarith) (by linarith) t
    have hYX : (1 + b) ^ t - (1 + a) ^ t ≤ (t : ℚ) * 2 ^ t * (b - a) := by
      calc (1 + b) ^ t - (1 + a) ^ t ≤ (t : ℚ) * 2 ^ t * ((1 + b) - (1 + a)) :=
            pow_sub_pow_le t (by linarith) (by linarith) (by linarith)
        _ = (t : ℚ) * 2 ^ t * (b - a) := by ring
    have heq : cash / (1 + a) ^ t - cash / (1 + b) ^ t =
        cash * ((1 + b) ^ t - (1 + a) ^ t) / ((1 + a) ^ t * (1 + b) ^ t) := by
      field_simp
      ring
    have hhead : cash / (1 + a) ^ t - cash / (1 + b) ^ t ≤ cash * t * 2 ^ t * (b - a) := by
      rw [heq]
      calc cash * ((1 + b) ^ t - (1 + a) ^ t) / ((1 + a) ^ t * (1 + b) ^ t)
          ≤ cash * ((1 + b) ^ t - (1 + a) ^ t) := by
            apply div_le_self (mul_nonneg hc (by linarith))
            calc (1 : ℚ) ≤ (1 + a) ^ t := hX1
              _ ≤ (1 + a) ^ t * (1 + b) ^ t :=
                  le_mul_of_one_le_right (by linarith) hY1
        _ ≤ cash * ((t : ℚ) * 2 ^ t * (b - a)) := mul_le_mul_of_nonneg_left hYX hc
        _ = cash * t * 2 ^ t * (b - a) := by ring
    have htail := ih hrest (t + 1)
    have hdistrib : (cash * t * 2 ^ t + pvLip (t + 1) rest) * (b - a) =
        cash * t * 2 ^ t * (b - a) + pvLip (t + 1) rest * (b - a) := by ring
    linarith

/-- Concrete bound on the Lipschitz coefficient for schedules with entries
at most 110 and at most `21 - t` periods remaining. -/
theorem pvLip_le {cf : List ℚ} (hub : ∀ x ∈ cf, x ≤ 110) (hnn : ∀ x ∈ cf, 0 ≤ x) :
    ∀ t, t + cf.length ≤ 21 → pvLip t cf ≤ (cf.length : ℚ) * (110 * 21 * 2 ^ 21) := by
  induction cf with
  | nil =>
    intro t _
    simp [pvLip]
  | cons cash rest ih =>
    intro t hlen
    simp only [pvLip, List.length_cons]
    have hc1 : cash ≤ 110 := hub cash (by simp)
    have hc0 : 0 ≤ cash := hnn cash (by simp)
    have hub' : ∀ x ∈ rest, x ≤ 110 := fun x hx => hub x (by simp [hx])
    have hnn' : ∀ x ∈ rest, 0 ≤ x := fun x hx => hnn x (by simp [hx])
    have ht21 : t ≤ 21 := by
      simp only [List.length_cons] at hlen
      omega
    have htq : (t : ℚ) ≤ 21 := by exact_mod_cast ht21
    have h2t : (2 : ℚ) ^ t ≤ 2 ^ 21 := pow_le_pow_right₀ (by norm_num) ht21
    have h2t0 : (0 : ℚ) ≤ 2 ^ t := by positivity
    have htq0 : (0 : ℚ) ≤ (t : ℚ) := Nat.cast_nonneg t
    have hhead : cash * t * 2 ^ t ≤ 110 * 21 * 2 ^ 21 := by
      calc cash * t * 2 ^ t ≤ 110 * t * 2 ^ t := by
            nlinarith [mul_nonneg (mul_nonneg (sub_nonneg.mpr hc1) htq0) h2t0]
        _ ≤ 110 * 21 * 2 ^ t := by
            nlinarith [mul_nonneg (sub_nonneg.mpr htq) h2t0]
        _ ≤ 110 * 21 * 2 ^ 21 := by linarith
    have htail := ih hub' hnn' (t + 1) (by
      simp only [List.length_cons] at hlen
      omega)
    push_cast
    linarith

/-! ## Unfolding the bond memo -/

theorem bond_eq_some {i : Inputs} (h : hasErrors (validateInputs i) = false) :
    bond i = some ⟨solve (cashflows i) i.price, 2 * solve (cashflows i) i.price,
      i.years * 2, cashflows i⟩ := by
  unfold bond
  rw [h]
  rfl

theorem bond_eq_none {i : Inputs} (h : hasErrors (validateInputs i) = true) :
    bond i = none := by
  unfold bond
  rw [h]
  rfl

/-! ## Bounds on generated schedules -/

/-- All schedule entries are nonnegative for nonnegative coupon and face. -/
theorem cashflows_nonneg {i : Inputs} (hc : 0 ≤ i.couponPct) (hf : 0 ≤ i.face) :
    ∀ x ∈ cashflows i, 0 ≤ x := by
  intro x hx
  rw [cashflows_def] at hx
  obtain ⟨t, _, rfl⟩ := List.mem_map.mp hx
  have hcf : 0 ≤ i.couponPct / 100 * i.face :=
    mul_nonneg (div_nonneg hc (by norm_num)) hf
  split_ifs <;> linarith

/-- All schedule entries are at most 110 when the coupon is in `[0, 20]` and
the face is 100. -/
theorem cashflows_ub {i : Inputs} (hc0 : 0 ≤ i.couponPct) (hc : i.couponPct ≤ 20)
    (hf : i.face = 100) :
    ∀ x ∈ cashflows i, x ≤ 110 := by
  intro x hx
  rw [cashflows_def] at hx
  obtain ⟨t, _, rfl⟩ := List.mem_map.mp hx
  rw [hf]
  have hcf : i.couponPct / 100 * 100 ≤ 20 := by linarith [div_mul_cancel₀ i.couponPct (by norm_num : (100:ℚ) ≠ 0)]
  split_ifs <;> linarith

/-- The schedule has at most 20 entries when `years ≤ 10`. -/
theorem cashflows_len_le {i : Inputs} (hy : i.years ≤ 10) : (cashflows i).length ≤ 20 := by
  rw [cashflows_def, List.length_map, List.length_range]
  have h1 : ⌊i.years * 2⌋ ≤ 20 := by
    have hle : (⌊i.years * 2⌋ : ℚ) ≤ 20 := le_trans (Int.floor_le _) (by linarith)
    exact_mod_cast hle
  omega

/-! ## Accuracy of the solved rate -/

/-- When the price is bracketed by `pv` on `[0, 1]`, the present value at the
solved rate matches the price to within `2 ^ (-160)`. -/
theorem solve_pv_close {cf : List ℚ} {p : ℚ}
    (hnn : ∀ x ∈ cf, 0 ≤ x) (hub : ∀ x ∈ cf, x ≤ 110) (hlen : cf.length ≤ 20)
    (h0 : p ≤ pv cf 0) (h1 : pv cf 1 ≤ p) :
    |pv cf (solve cf p) - p| ≤ 1 / 2 ^ 160 := by
  obtain ⟨hb0, hbm, hb1⟩ :=
    @bisect_bounds cf p 200 ((0 : ℚ), 1) (by norm_num) (by norm_num) (by norm_num)
  obtain ⟨hJ1, hJ2⟩ := @bisect_bracket cf p 200 ((0 : ℚ), 1) h0 h1
  have hwidth : (bisect cf p 200 (0, 1)).2 - (bisect cf p 200 (0, 1)).1 = 1 / 2 ^ 200 := by
    rw [bisect_width]
    norm_num
  set s := bisect cf p 200 ((0 : ℚ), 1) with hs
  have hy1 : s.1 ≤ (s.1 + s.2) / 2 := by linarith
  have hy2 : (s.1 + s.2) / 2 ≤ s.2 := by linarith
  have hylo : pv cf ((s.1 + s.2) / 2) ≤ pv cf s.1 :=
    pvFrom_le_pvFrom hnn (by linarith) hy1 1
  have hyhi : pv cf s.2 ≤ pv cf ((s.1 + s.2) / 2) :=
    pvFrom_le_pvFrom hnn (by linarith) hy2 1
  have hdiff : pv cf s.1 - pv cf s.2 ≤ pvLip 1 cf * (s.2 - s.1) :=
    pvFrom_sub_le hnn (by linarith) (by linarith) (by linarith) 1
  have hlip : pvLip 1 cf ≤ (cf.length : ℚ) * (110 * 21 * 2 ^ 21) :=
    pvLip_le hub hnn 1 (by omega)
  have hlenq : (cf.length : ℚ) ≤ 20 := by exact_mod_cast hlen
  have hC : (cf.length : ℚ) * (110 * 21 * 2 ^ 21) ≤ 20 * (110 * 21 * 2 ^ 21) := by
    nlinarith
  have hlip0 : pvLip 1 cf * (s.2 - s.1) ≤ (20 * (110 * 21 * 2 ^ 21)) * (s.2 - s.1) := by
    have hw0 : 0 ≤ s.2 - s.1 := by linarith
    nlinarith
  have hnum : (20 * (110 * 21 * 2 ^ 21) : ℚ) * (1 / 2 ^ 200) ≤ 1 / 2 ^ 160 := by norm_num
  rw [solve_def, ← hs, abs_le]
  constructor <;> nlinarith [hwidth, hdiff, hlip0, hnum, hylo, hyhi, hJ1, hJ2]

/-- If `pv` has an exact root in `[0, 1]`, the solver lands within
`2 ^ (-201)` of it. -/
theorem solve_close_of_root {cf : List ℚ} {p ys : ℚ}
    (hnn : ∀ x ∈ cf, 0 ≤ x) (hpos : ∃ x ∈ cf, 0 < x)
    (hy0 : 0 ≤ ys) (hy1 : ys ≤ 1) (hroot : pv cf ys = p) :
    |solve cf p - ys| ≤ 1 / 2 ^ 201 := by
  have h0 : p ≤ pv cf 0 := by
    rw [← hroot]
    exact pvFrom_le_pvFrom hnn (by norm_num) hy0 1
  have h1 : pv cf 1 ≤ p := by
    rw [← hroot]
    exact pvFrom_le_pvFrom hnn (by linarith) hy1 1
  obtain ⟨hb0, hbm, hb1⟩ :=
    @bisect_bounds cf p 200 ((0 : ℚ), 1) (by norm_num) (by norm_num) (by norm_num)
  obtain ⟨hJ1, hJ2⟩ := @bisect_bracket cf p 200 ((0 : ℚ), 1) h0 h1
  have hwidth : (bisect cf p 200 (0, 1)).2 - (bisect cf p 200 (0, 1)).1 = 1 / 2 ^ 200 := by
    rw [bisect_width]
    norm_num
  set s := bisect cf p 200 ((0 : ℚ), 1) with hs
  have hlo_le : s.1 ≤ ys := by
    by_contra hcon
    push_neg at hcon
    have : pv cf s.1 < pv cf ys :=
      pvFrom_lt_pvFrom hnn hpos (by linarith) hcon le_rfl
    rw [hroot] at this
    linarith
  have hys_le : ys ≤ s.2 := by
    by_contra hcon
    push_neg at hcon
    have : pv cf ys < pv cf s.2 :=
      pvFrom_lt_pvFrom hnn hpos (by linarith) hcon le_rfl
    rw [hroot] at this
    linarith
  rw [solve_def, ← hs, abs_le]
  constructor <;> linarith

/-- If `pv` never exceeds the price on `[0, 1]`, the solver returns exactly
`2 ^ (-201)`: the interval collapses onto the lower boundary 0. -/
theorem solve_saturate {cf : List ℚ} {p : ℚ}
    (hall : ∀ x, 0 ≤ x → x ≤ 1 → pv cf x ≤ p) :
    solve cf p = 1 / 2 ^ 201 := by
  rw [solve_def, bisect_all_below 200 (by norm_num) (fun x hx1 hx2 => hall x hx1 hx2)]
  norm_num

/-- The schedule of the lone half-year, zero-coupon bundle is the single
face repayment. -/
theorem cashflows_half_year (p : ℚ) : cashflows ⟨p, 0, 1/2, 100⟩ = [100] := by
  have h : Int.toNat ⌊(1/2 : ℚ) * 2⌋ = 1 := by
    rw [show ⌊(1/2 : ℚ) * 2⌋ = 1 by norm_num]
    rfl
  rw [cashflows_def]
  show (List.range (Int.toNat ⌊(1/2 : ℚ) * 2⌋)).map _ = _
  rw [h]
  simp only [List.range_succ, List.range_zero, List.map_append, List.map_cons, List.map_nil,
    List.nil_append, List.cons_append]
  norm_num

/-- Any price of at least the undiscounted total 100 saturates the solver on
the single-repayment schedule. -/
theorem solve_100_saturate {p : ℚ} (hp : 100 ≤ p) : solve [100] p = 1 / 2 ^ 201 := by
  apply solve_saturate
  intro x hx0 _
  have hpv : pv [100] x = 100 / (1 + x) := by
    simp [pv, pvFrom]
  rw [hpv]
  calc (100 : ℚ) / (1 + x) ≤ 100 := div_le_self (by norm_num) (by linarith)
    _ ≤ p := hp

/-! ## Claims -/

/-- C1 counterexample: at the valid default input the App's bond memo does
return a result, but the returned object literal has no EAR field at all —
its fields are exactly yPer, bey, periods and cashflows. -/
theorem c1_counterexample :
    (bond ⟨9776/100, 110088/10000, 5, 100⟩).isSome = true ∧
      "ear" ∉ bondResultFields ∧ "effectiveAnnualRate" ∉ bondResultFields := by
  refine ⟨?_, by decide, by decide⟩
  rw [bond_eq_some (by norm_num [hasErrors, validateInputs])]
  rfl

/-- C1 (amended): the standalone `solveYTM_SemiannualPerPeriod` variant does
return an `ear` field equal to `(1 + periodRate)^2 - 1` alongside yPer, bey,
periods and cashflows, but the App memo's returned object carries only yPer,
bey, periods and cashflows, with no EAR field. -/
theorem c1_ear_field :
    (∀ price couponPct years face : ℚ,
      (solveYTM_SemiannualPerPeriod price couponPct years face).ear =
        (1 + (solveYTM_SemiannualPerPeriod price couponPct years face).yPer) ^ 2 - 1 ∧
      (solveYTM_SemiannualPerPeriod price couponPct years face).bey =
        2 * (solveYTM_SemiannualPerPeriod price couponPct years face).yPer) ∧
    "ear" ∈ solveYTMResultFields ∧ "ear" ∉ bondResultFields :=
  ⟨fun _ _ _ _ => ⟨rfl, rfl⟩, by decide, by decide⟩

/-- C2 counterexample: years = 0.25 is below the documented 0.5 minimum and
is not a multiple of 0.5, yet validation reports no error on any field and
the solver is still invoked — the memo returns a result. -/
theorem c2_counterexample :
    (validateInputs ⟨100, 5, 1/4, 100⟩).years = none ∧
      hasErrors (validateInputs ⟨100, 5, 1/4, 100⟩) = false ∧
      (bond ⟨100, 5, 1/4, 100⟩).isSome = true := by
  refine ⟨by norm_num [validateInputs], by norm_num [hasErrors, validateInputs], ?_⟩
  rw [bond_eq_some (by norm_num [hasErrors, validateInputs])]
  rfl

/-- C2 (amended): validation flags price outside [50, 150] (a zero price is
also caught), coupon outside [0, 20] and years outside (0, 10]; it checks
neither the documented 0.5 lower bound nor half-integer granularity of
years, and the solver runs exactly when no field has an error. -/
theorem c2_validation :
    ∀ i : Inputs,
      ((validateInputs i).price = none ↔ 50 ≤ i.price ∧ i.price ≤ 150) ∧
      ((validateInputs i).couponPct = none ↔ 0 ≤ i.couponPct ∧ i.couponPct ≤ 20) ∧
      ((validateInputs i).years = none ↔ 0 < i.years ∧ i.years ≤ 10) ∧
      ((bond i).isSome = true ↔ hasErrors (validateInputs i) = false) := by
  intro i
  refine ⟨?_, ?_, ?_, ?_⟩
  · simp only [validateInputs]
    split_ifs with h1 h2
    · constructor
      · intro h
        exact h.elim
      · rintro ⟨ha, _⟩
        rcases h1 with h | h
        · rw [h] at ha
          linarith
        · linarith
    · constructor
      · intro h
        exact h.elim
      · rintro ⟨_, hb⟩
        linarith
    · push_neg at h1
      exact ⟨fun _ => ⟨h1.2, not_lt.mp h2⟩, fun _ => rfl⟩
  · simp only [validateInputs]
    split_ifs with h1 h2
    · constructor
      · intro h
        exact h.elim
      · rintro ⟨ha, _⟩
        linarith
    · constructor
      · intro h
        exact h.elim
      · rintro ⟨_, hb⟩
        linarith
    · exact ⟨fun _ => ⟨not_lt.mp h1, not_lt.mp h2⟩, fun _ => rfl⟩
  · simp only [validateInputs]
    split_ifs with h1 h2
    · constructor
      · intro h
        exact h.elim
      · rintro ⟨ha, _⟩
        rcases h1 with h | h
        · rw [h] at ha
          linarith
        · linarith
    · constructor
      · intro h
        exact h.elim
      · rintro ⟨_, hb⟩
        linarith
    · push_neg at h1
      exact ⟨fun _ => ⟨h1.2, not_lt.mp h2⟩, fun _ => rfl⟩
  · cases hhe : hasErrors (validateInputs i) with
    | false =>
      rw [bond_eq_some hhe]
      simp
    | true =>
      rw [bond_eq_none hhe]
      simp

/-- C3: with validation passing but years*2 not an integer, the schedule has
floor(years*2) entries that all equal the plain half coupon — the face
repayment is silently dropped — and the memo still returns a bundle solved by
bisection over this principal-less schedule. -/
theorem c3_fractional_schedule (i : Inputs)
    (hv : hasErrors (validateInputs i) = false)
    (hni : (⌊i.years * 2⌋ : ℚ) ≠ i.years * 2) :
    (cashflows i).length = Int.toNat ⌊i.years * 2⌋ ∧
      (∀ x ∈ cashflows i, x = i.couponPct / 100 * i.face / 2) ∧
      bond i = some ⟨solve (cashflows i) i.price, 2 * solve (cashflows i) i.price,
        i.years * 2, cashflows i⟩ := by
  refine ⟨?_, ?_, bond_eq_some hv⟩
  · rw [cashflows_def, List.length_map, List.length_range]
  · intro x hx
    rw [cashflows_frac i hni] at hx
    obtain ⟨t, _, rfl⟩ := List.mem_map.mp hx
    rfl

theorem c3_witness :
    hasErrors (validateInputs ⟨100, 10, 21/4, 100⟩) = false ∧
      (⌊(⟨100, 10, 21/4, 100⟩ : Inputs).years * 2⌋ : ℚ) ≠
        (⟨100, 10, 21/4, 100⟩ : Inputs).years * 2 ∧
      ((cashflows ⟨100, 10, 21/4, 100⟩).length =
          Int.toNat ⌊(⟨100, 10, 21/4, 100⟩ : Inputs).years * 2⌋ ∧
        (∀ x ∈ cashflows ⟨100, 10, 21/4, 100⟩, x = 10 / 100 * 100 / 2) ∧
        bond ⟨100, 10, 21/4, 100⟩ =
          some ⟨solve (cashflows ⟨100, 10, 21/4, 100⟩) 100,
            2 * solve (cashflows ⟨100, 10, 21/4, 100⟩) 100,
            (21/4 : ℚ) * 2, cashflows ⟨100, 10, 21/4, 100⟩⟩) := by
  have hA : hasErrors (validateInputs ⟨100, 10, 21/4, 100⟩) = false := by
    norm_num [hasErrors, validateInputs]
  have hB : (⌊(⟨100, 10, 21/4, 100⟩ : Inputs).years * 2⌋ : ℚ) ≠
      (⟨100, 10, 21/4, 100⟩ : Inputs).years * 2 := by
    show (⌊(21/4 : ℚ) * 2⌋ : ℚ) ≠ (21/4 : ℚ) * 2
    norm_num
  exact ⟨hA, hB, c3_fractional_schedule _ hA hB⟩

/-- C4: when years*2 is exactly the positive integer m, the schedule has m
entries; entries 0 through m-2 (1-based: 1..m-1) equal the half coupon c/2
and entry m-1 (1-based: m) equals c/2 + face. -/
theorem c4_schedule_shape (i : Inputs) {m : ℕ} (hm1 : 1 ≤ m)
    (hm : i.years * 2 = (m : ℚ)) :
    (cashflows i).length = m ∧
      ∀ t : ℕ, t < m → (cashflows i).getD t 0 =
        if t = m - 1 then i.couponPct / 100 * i.face / 2 + i.face
        else i.couponPct / 100 * i.face / 2 := by
  have hsched := cashflows_int i hm1 hm
  constructor
  · rw [hsched, List.length_map, List.length_range]
  · intro t ht
    rw [hsched, getD_range_map _ ht]

theorem c4_witness :
    (1 ≤ 6 ∧ (⟨100, 8, 3, 100⟩ : Inputs).years * 2 = ((6 : ℕ) : ℚ)) ∧
      ((cashflows ⟨100, 8, 3, 100⟩).length = 6 ∧
        ∀ t : ℕ, t < 6 → (cashflows ⟨100, 8, 3, 100⟩).getD t 0 =
          if t = 6 - 1 then 8 / 100 * 100 / 2 + 100 else 8 / 100 * 100 / 2) := by
  have hm : (⟨100, 8, 3, 100⟩ : Inputs).years * 2 = ((6 : ℕ) : ℚ) := by
    show (3 : ℚ) * 2 = ((6 : ℕ) : ℚ)
    norm_num
  exact ⟨⟨by norm_num, hm⟩, c4_schedule_shape _ (by norm_num) hm⟩

/-- C5: the solver is exactly 200 iterations of the specification's
bisection step — mid = (lo+hi)/2, lo = mid when PV(mid) > price else
hi = mid — starting from [0, 1]; the returned periodRate is the final
midpoint and bey doubles it. -/
theorem c5_bisection_algorithm :
    (∀ (cf : List ℚ) (price : ℚ),
      solve cf price =
        (((specBisectStep cf price)^[200] (0, 1)).1 +
          ((specBisectStep cf price)^[200] (0, 1)).2) / 2) ∧
    ∀ i : Inputs, (bond i).map (fun r => (r.yPer, r.bey)) =
      (bond i).map fun _ => (solve (cashflows i) i.price,
        2 * solve (cashflows i) i.price) := by
  constructor
  · intro cf price
    have hstep : specBisectStep cf price = bstep cf price := funext fun _ => rfl
    rw [solve_def, hstep, ← bisect_eq_iterate]
  · intro i
    cases hhe : hasErrors (validateInputs i) with
    | false =>
      rw [bond_eq_some hhe]
      rfl
    | true =>
      rw [bond_eq_none hhe]
      rfl

/-- C6 counterexample: two valid bundles differing only in price (120 and
130, zero coupon, half a year): both saturate the search interval at its
lower boundary and return the same bey, so the strictly-greater price does
not produce a strictly smaller bondEquivalentYield. -/
theorem c6_counterexample :
    hasErrors (validateInputs ⟨120, 0, 1/2, 100⟩) = false ∧
      hasErrors (validateInputs ⟨130, 0, 1/2, 100⟩) = false ∧
      (120 : ℚ) < 130 ∧
      (bond ⟨120, 0, 1/2, 100⟩).map BondResult.bey = some (2 * (1 / 2 ^ 201)) ∧
      (bond ⟨130, 0, 1/2, 100⟩).map BondResult.bey = some (2 * (1 / 2 ^ 201)) := by
  have hv1 : hasErrors (validateInputs ⟨120, 0, 1/2, 100⟩) = false := by
    norm_num [hasErrors, validateInputs]
  have hv2 : hasErrors (validateInputs ⟨130, 0, 1/2, 100⟩) = false := by
    norm_num [hasErrors, validateInputs]
  refine ⟨hv1, hv2, by norm_num, ?_, ?_⟩
  · rw [bond_eq_some hv1, Option.map_some', cashflows_half_year,
      solve_100_saturate (by norm_num)]
  · rw [bond_eq_some hv2, Option.map_some', cashflows_half_year,
      solve_100_saturate (by norm_num)]

/-- C6 (amended): the returned bey is weakly antitone in the price: between
two validation-passing bundles identical except for the price, the one with
the greater price has a bey that is less than or equal to the other — strict
decrease can fail when the bisection saturates or the prices are closer than
its resolution. -/
theorem c6_price_antitone (i1 i2 : Inputs) (r1 r2 : BondResult)
    (hc : i1.couponPct = i2.couponPct) (hy : i1.years = i2.years)
    (hf : i1.face = i2.face) (hp : i1.price ≤ i2.price)
    (h1 : bond i1 = some r1) (h2 : bond i2 = some r2) :
    r2.bey ≤ r1.bey := by
  have hcf : cashflows i1 = cashflows i2 := by
    rw [cashflows_def, cashflows_def, hc, hy, hf]
  have hv1 : hasErrors (validateInputs i1) = false := by
    cases hhe : hasErrors (validateInputs i1) with
    | false => rfl
    | true =>
      rw [bond_eq_none hhe] at h1
      exact absurd h1 (by simp)
  have hv2 : hasErrors (validateInputs i2) = false := by
    cases hhe : hasErrors (validateInputs i2) with
    | false => rfl
    | true =>
      rw [bond_eq_none hhe] at h2
      exact absurd h2 (by simp)
  rw [bond_eq_some hv1] at h1
  rw [bond_eq_some hv2] at h2
  obtain rfl := Option.some.inj h1
  obtain rfl := Option.some.inj h2
  show 2 * solve (cashflows i2) i2.price ≤ 2 * solve (cashflows i1) i1.price
  rw [← hcf]
  have := @solve_anti (cashflows i1) i1.price i2.price hp
  linarith

theorem c6_witness :
    bond ⟨120, 0, 1/2, 100⟩ =
        some ⟨solve (cashflows ⟨120, 0, 1/2, 100⟩) 120,
          2 * solve (cashflows ⟨120, 0, 1/2, 100⟩) 120, (1/2 : ℚ) * 2,
          cashflows ⟨120, 0, 1/2, 100⟩⟩ ∧
      bond ⟨130, 0, 1/2, 100⟩ =
        some ⟨solve (cashflows ⟨130, 0, 1/2, 100⟩) 130,
          2 * solve (cashflows ⟨130, 0, 1/2, 100⟩) 130, (1/2 : ℚ) * 2,
          cashflows ⟨130, 0, 1/2, 100⟩⟩ ∧
      2 * solve (cashflows ⟨130, 0, 1/2, 100⟩) 130 ≤
        2 * solve (cashflows ⟨120, 0, 1/2, 100⟩) 120 := by
  have h1 := bond_eq_some (i := ⟨120, 0, 1/2, 100⟩) (by norm_num [hasErrors, validateInputs])
  have h2 := bond_eq_some (i := ⟨130, 0, 1/2, 100⟩) (by norm_num [hasErrors, validateInputs])
  exact ⟨h1, h2,
    c6_price_antitone ⟨120, 0, 1/2, 100⟩ ⟨130, 0, 1/2, 100⟩ _ _ rfl rfl rfl (by norm_num) h1 h2⟩

/-- C7: the present value of a schedule generated from valid parameters
(nonnegative coupon, positive face, a whole positive number of semiannual
periods) is strictly decreasing in the rate on rates above -1. -/
theorem c7_pv_strict_anti (i : Inputs) {m : ℕ} (hm1 : 1 ≤ m)
    (hm : i.years * 2 = (m : ℚ)) (hc : 0 ≤ i.couponPct) (hf : 0 < i.face)
    {y1 y2 : ℚ} (hy1 : -1 < y1) (h12 : y1 < y2) :
    pv (cashflows i) y2 < pv (cashflows i) y1 := by
  apply pvFrom_lt_pvFrom (cashflows_nonneg hc (le_of_lt hf)) ?_ hy1 h12 le_rfl
  rw [cashflows_int i hm1 hm]
  refine ⟨i.couponPct / 100 * i.face / 2 + i.face, ?_, ?_⟩
  · apply List.mem_map.mpr
    exact ⟨m - 1, List.mem_range.mpr (by omega), by rw [if_pos rfl]⟩
  · have h0 : 0 ≤ i.couponPct / 100 * i.face :=
      mul_nonneg (div_nonneg hc (by norm_num)) (le_of_lt hf)
    linarith

theorem c7_witness :
    ((1 : ℕ) ≤ 10 ∧ (⟨9776/100, 110088/10000, 5, 100⟩ : Inputs).years * 2 = ((10 : ℕ) : ℚ) ∧
      (0 : ℚ) ≤ 110088/10000 ∧ (0 : ℚ) < 100 ∧ (-1 : ℚ) < 0 ∧ (0 : ℚ) < 1) ∧
      pv (cashflows ⟨9776/100, 110088/10000, 5, 100⟩) 1 <
        pv (cashflows ⟨9776/100, 110088/10000, 5, 100⟩) 0 := by
  have hm : (⟨9776/100, 110088/10000, 5, 100⟩ : Inputs).years * 2 = ((10 : ℕ) : ℚ) := by
    show (5 : ℚ) * 2 = ((10 : ℕ) : ℚ)
    norm_num
  exact ⟨⟨by norm_num, hm, by norm_num, by norm_num, by norm_num, by norm_num⟩,
    c7_pv_strict_anti _ (by norm_num) hm (by norm_num) (by norm_num) (by norm_num) (by norm_num)⟩

/-- C8: the solver is total — for every schedule and every price the fixed
200-step loop produces a rate, that rate always lies within [0, 1], and so
does the yPer of any returned bond result. -/
theorem c8_solver_total_bounds :
    (∀ (cf : List ℚ) (price : ℚ), 0 ≤ solve cf price ∧ solve cf price ≤ 1) ∧
      ∀ i : Inputs, (bond i).elim True fun r => 0 ≤ r.yPer ∧ r.yPer ≤ 1 := by
  have hmain : ∀ (cf : List ℚ) (price : ℚ), 0 ≤ solve cf price ∧ solve cf price ≤ 1 := by
    intro cf price
    obtain ⟨h0, hm, h1⟩ :=
      @bisect_bounds cf price 200 ((0 : ℚ), 1) (by norm_num) (by norm_num) (by norm_num)
    rw [solve_def]
    constructor <;> linarith
  refine ⟨hmain, ?_⟩
  intro i
  cases hhe : hasErrors (validateInputs i) with
  | false =>
    rw [bond_eq_some hhe]
    exact hmain _ _
  | true =>
    rw [bond_eq_none hhe]
    trivial

/-- C9 counterexample: the valid bundle (price 150, coupon 0, half a year,
face 100) prices above the undiscounted cash-flow total of 100; the solver
pins the rate at the lower boundary, and the recomputed pv misses the price
by about 50 — far beyond the claimed 1e-9 relative tolerance. -/
theorem c9_counterexample :
    hasErrors (validateInputs ⟨150, 0, 1/2, 100⟩) = false ∧
      (bond ⟨150, 0, 1/2, 100⟩).map BondResult.yPer = some (1 / 2 ^ 201) ∧
      150 * (1 / 10 ^ 9) < |pv (cashflows ⟨150, 0, 1/2, 100⟩) (1 / 2 ^ 201) - 150| := by
  have hv : hasErrors (validateInputs ⟨150, 0, 1/2, 100⟩) = false := by
    norm_num [hasErrors, validateInputs]
  refine ⟨hv, ?_, ?_⟩
  · rw [bond_eq_some hv, Option.map_some', cashflows_half_year,
      solve_100_saturate (by norm_num)]
  · rw [cashflows_half_year]
    have hpv : pv [100] (1 / 2 ^ 201 : ℚ) = 100 / (1 + 1 / 2 ^ 201) := by
      simp [pv, pvFrom]
    rw [hpv]
    have h1 : (100 : ℚ) / (1 + 1 / 2 ^ 201) ≤ 100 := div_le_self (by norm_num) (by norm_num)
    have h2 : (0 : ℚ) < 100 / (1 + 1 / 2 ^ 201) := by positivity
    rw [abs_of_neg (by linarith)]
    have h3 : (150 : ℚ) * (1 / 10 ^ 9) < 50 := by norm_num
    linarith

/-- C9 (amended): for validation-passing inputs in the documented ranges
with face 100, whenever the price is additionally bracketed by the
schedule's pv over the search interval — pv(1) ≤ price ≤ pv(0), which the
documented ranges alone do not guarantee — the pv recomputed at the returned
periodRate equals the price to within 1e-9 relative error. -/
theorem c9_pv_accuracy (i : Inputs) (hc0 : 0 ≤ i.couponPct) (hc : i.couponPct ≤ 20)
    (hf : i.face = 100) (hy : i.years ≤ 10) (hp : 50 ≤ i.price)
    (h0 : i.price ≤ pv (cashflows i) 0) (h1 : pv (cashflows i) 1 ≤ i.price)
    (r : BondResult) (hr : bond i = some r) :
    |pv (cashflows i) r.yPer - i.price| ≤ i.price * (1 / 10 ^ 9) := by
  have hv : hasErrors (validateInputs i) = false := by
    cases hhe : hasErrors (validateInputs i) with
    | false => rfl
    | true =>
      rw [bond_eq_none hhe] at hr
      exact absurd hr (by simp)
  rw [bond_eq_some hv] at hr
  obtain rfl := Option.some.inj hr
  have hf0 : (0 : ℚ) ≤ i.face := by
    rw [hf]
    norm_num
  have hclose := solve_pv_close (cashflows_nonneg hc0 hf0) (cashflows_ub hc0 hc hf)
    (cashflows_len_le hy) h0 h1
  have hnum : (1 : ℚ) / 2 ^ 160 ≤ 50 * (1 / 10 ^ 9) := by norm_num
  have hbound : (50 : ℚ) * (1 / 10 ^ 9) ≤ i.price * (1 / 10 ^ 9) := by linarith
  show |pv (cashflows i) (solve (cashflows i) i.price) - i.price| ≤ i.price * (1 / 10 ^ 9)
  linarith [hclose]

theorem c9_witness :
    ((0 : ℚ) ≤ 110088/10000 ∧ (110088/10000 : ℚ) ≤ 20 ∧
      (⟨9776/100, 110088/10000, 5, 100⟩ : Inputs).face = 100 ∧
      (⟨9776/100, 110088/10000, 5, 100⟩ : Inputs).years ≤ 10 ∧
      (50 : ℚ) ≤ (⟨9776/100, 110088/10000, 5, 100⟩ : Inputs).price ∧
      (⟨9776/100, 110088/10000, 5, 100⟩ : Inputs).price ≤
        pv (cashflows ⟨9776/100, 110088/10000, 5, 100⟩) 0 ∧
      pv (cashflows ⟨9776/100, 110088/10000, 5, 100⟩) 1 ≤
        (⟨9776/100, 110088/10000, 5, 100⟩ : Inputs).price ∧
      bond ⟨9776/100, 110088/10000, 5, 100⟩ =
        some ⟨solve (cashflows ⟨9776/100, 110088/10000, 5, 100⟩) (9776/100),
          2 * solve (cashflows ⟨9776/100, 110088/10000, 5, 100⟩) (9776/100),
          (5 : ℚ) * 2, cashflows ⟨9776/100, 110088/10000, 5, 100⟩⟩) ∧
      |pv (cashflows ⟨9776/100, 110088/10000, 5, 100⟩)
          (solve (cashflows ⟨9776/100, 110088/10000, 5, 100⟩) (9776/100)) - 9776/100| ≤
        9776/100 * (1 / 10 ^ 9) := by
  have hcf : cashflows ⟨9776/100, 110088/10000, 5, 100⟩ =
      [13761/2500, 13761/2500, 13761/2500, 13761/2500, 13761/2500, 13761/2500, 13761/2500,
        13761/2500, 13761/2500, 263761/2500] := by
    have h : Int.toNat ⌊(5 : ℚ) * 2⌋ = 10 := by
      rw [show ⌊(5 : ℚ) * 2⌋ = 10 by norm_num]
      rfl
    rw [cashflows_def]
    show (List.range (Int.toNat ⌊(5 : ℚ) * 2⌋)).map _ = _
    rw [h]
    simp only [List.range_succ, List.range_zero, List.map_append, List.map_cons, List.map_nil,
      List.nil_append, List.cons_append]
    norm_num
  have h0 : (⟨9776/100, 110088/10000, 5, 100⟩ : Inputs).price ≤
      pv (cashflows ⟨9776/100, 110088/10000, 5, 100⟩) 0 := by
    rw [hcf]
    show (9776/100 : ℚ) ≤ pv _ 0
    norm_num [pv, pvFrom]
  have h1 : pv (cashflows ⟨9776/100, 110088/10000, 5, 100⟩) 1 ≤
      (⟨9776/100, 110088/10000, 5, 100⟩ : Inputs).price := by
    rw [hcf]
    show pv _ 1 ≤ (9776/100 : ℚ)
    norm_num [pv, pvFrom]
  have hr := bond_eq_some (i := ⟨9776/100, 110088/10000, 5, 100⟩)
    (by norm_num [hasErrors, validateInputs])
  refine ⟨⟨by norm_num, by norm_num, rfl, by norm_num, by norm_num, h0, h1, hr⟩, ?_⟩
  have hmain := c9_pv_accuracy ⟨9776/100, 110088/10000, 5, 100⟩ (by norm_num) (by norm_num)
    rfl (by norm_num) (by norm_num) h0 h1 _ hr
  exact hmain

/-- C10: a bond priced at par yields its coupon rate: for a bundle priced at
its (positive) face with coupon in [0, 20] and a whole positive number of
semiannual periods, the returned bey times 100 equals couponRatePercent to
within 1e-6. -/
theorem c10_par_bond (i : Inputs) {m : ℕ} (hm1 : 1 ≤ m)
    (hm : i.years * 2 = (m : ℚ)) (hc0 : 0 ≤ i.couponPct) (hc : i.couponPct ≤ 20)
    (hf : 0 < i.face) (hpar : i.price = i.face)
    (r : BondResult) (hr : bond i = some r) :
    |r.bey * 100 - i.couponPct| ≤ 1 / 10 ^ 6 := by
  have hq0 : 0 ≤ i.couponPct / 100 * i.face / 2 :=
    div_nonneg (mul_nonneg (div_nonneg hc0 (by norm_num)) (le_of_lt hf)) (by norm_num)
  have hys : i.couponPct / 100 * i.face / 2 / i.face = i.couponPct / 200 := by
    field_simp
    ring
  have hroot : pv (cashflows i) (i.couponPct / 200) = i.price := by
    rw [hpar, ← hys, cashflows_int i hm1 hm]
    exact pv_par (i.couponPct / 100 * i.face / 2) i.face hf hq0 m hm1
  have hnn := cashflows_nonneg hc0 (le_of_lt hf)
  have hpos : ∃ x ∈ cashflows i, 0 < x := by
    rw [cashflows_int i hm1 hm]
    refine ⟨i.couponPct / 100 * i.face / 2 + i.face, ?_, by linarith⟩
    apply List.mem_map.mpr
    exact ⟨m - 1, List.mem_range.mpr (by omega), by rw [if_pos rfl]⟩
  have hys0 : 0 ≤ i.couponPct / 200 := by positivity
  have hys1 : i.couponPct / 200 ≤ 1 := by linarith
  have hclose := solve_close_of_root hnn hpos hys0 hys1 hroot
  have hv : hasErrors (validateInputs i) = false := by
    cases hhe : hasErrors (validateInputs i) with
    | false => rfl
    | true =>
      rw [bond_eq_none hhe] at hr
      exact absurd hr (by simp)
  rw [bond_eq_some hv] at hr
  obtain rfl := Option.some.inj hr
  show |2 * solve (cashflows i) i.price * 100 - i.couponPct| ≤ 1 / 10 ^ 6
  rw [abs_le] at hclose ⊢
  obtain ⟨ha, hb⟩ := hclose
  have hnum : (200 : ℚ) * (1 / 2 ^ 201) ≤ 1 / 10 ^ 6 := by norm_num
  constructor <;> linarith

theorem c10_witness :
    ((1 : ℕ) ≤ 10 ∧ (⟨100, 10, 5, 100⟩ : Inputs).years * 2 = ((10 : ℕ) : ℚ) ∧
      (0 : ℚ) ≤ 10 ∧ (10 : ℚ) ≤ 20 ∧ (0 : ℚ) < 100 ∧
      (⟨100, 10, 5, 100⟩ : Inputs).price = (⟨100, 10, 5, 100⟩ : Inputs).face ∧
      bond ⟨100, 10, 5, 100⟩ =
        some ⟨solve (cashflows ⟨100, 10, 5, 100⟩) 100,
          2 * solve (cashflows ⟨100, 10, 5, 100⟩) 100, (5 : ℚ) * 2,
          cashflows ⟨100, 10, 5, 100⟩⟩) ∧
      |2 * solve (cashflows ⟨100, 10, 5, 100⟩) 100 * 100 - 10| ≤ 1 / 10 ^ 6 := by
  have hm : (⟨100, 10, 5, 100⟩ : Inputs).years * 2 = ((10 : ℕ) : ℚ) := by
    show (5 : ℚ) * 2 = ((10 : ℕ) : ℚ)
    norm_num
  have hr := bond_eq_some (i := ⟨100, 10, 5, 100⟩) (by norm_num [hasErrors, validateInputs])
  refine ⟨⟨by norm_num, hm, by norm_num, by norm_num, by norm_num, rfl, hr⟩, ?_⟩
  have hmain := c10_par_bond ⟨100, 10, 5, 100⟩ (m := 10) (by norm_num) hm (by norm_num)
    (by norm_num) (by norm_num) rfl _ hr
  exact hmain

end BondYTM
